import Mathlib

/-!
Shallow embedding of the merge2 crate (`src/lib.rs` together with the field
composition rule generated by `merge2_derive`).  A Rust merge strategy
`fn(left: &mut T, right: &mut T)` is modelled as a pure function
`T → T → T × T` returning the post-call values of `(left, right)`.
`Vec<T>` is modelled as `List T`, `String` as `List Char`, `HashMap<K, V>`
as an association list whose key column has no duplicates, `Default::default()`
as an explicit argument, and Rust's `partial_cmp` as an explicit parameter
`pcmp : α → α → Option Ordering`.
-/

namespace Merge2

variable {α β K V : Type}

namespace any

/-- Strategy `any::overwrite`: `*left = core::mem::take(right)`; `d` is the
type's `Default::default()` left behind in `right`. -/
def overwrite (d left right : α) : α × α :=
  let _ := left
  (right, d)

/-- Strategy `any::overwrite_default`: swap the two values when `left` equals
the type's default value `d`. -/
def overwrite_default [DecidableEq α] (d left right : α) : α × α :=
  if left = d then (right, left) else (left, right)

/-- Strategy `any::swap`: `core::mem::swap(left, right)`. -/
def swap (left right : α) : α × α :=
  (right, left)

end any

/-- The `impl Merge for Option<T>`: swap exactly when `left` is `None`. -/
def optionMerge (left right : Option α) : Option α × Option α :=
  if left.isNone then (right, left) else (left, right)

namespace option

/-- Strategy `option::recursive`: `right.take()`; on `Some(new)`, either merge
`new` into the existing inner value with the inner merge `m`, or adopt it. -/
def recursive (m : α → α → α × α) (left right : Option α) : Option α × Option α :=
  match right with
  | none => (left, none)
  | some y =>
    match left with
    | some x => (some (m x y).1, none)
    | none => (some y, none)

end option

/-- The `skip_merge!` implementations for the primitive numeric and boolean
types: `fn merge(&mut self, _: &mut Self) {}`, a no-op on both operands. -/
def skipMerge (left right : α) : α × α :=
  (left, right)

namespace bool

/-- Strategy `bool::overwrite_false`: copy `right` into `left` when `left` is
`false`; `right` is only read. -/
def overwrite_false (left right : Bool) : Bool × Bool :=
  (if !left then right else left, right)

/-- Strategy `bool::overwrite_true`: copy `right` into `left` when `left` is
`true`; `right` is only read. -/
def overwrite_true (left right : Bool) : Bool × Bool :=
  (if left then right else left, right)

end bool

/-- Saturating addition of an unsigned `w`-bit integer (the semantics of
`num_traits::SaturatingAdd` on `uN`): clamp the sum at `2 ^ w - 1`. -/
def usatAdd (w a b : Nat) : Nat :=
  min (a + b) (2 ^ w - 1)

/-- Saturating addition of a signed integer with `e` value bits (the semantics
of `num_traits::SaturatingAdd` on `iN` with `e = N - 1`): clamp the sum to
`[-2 ^ e, 2 ^ e - 1]`. -/
def isatAdd (e : Nat) (a b : Int) : Int :=
  max (-(2 ^ e)) (min (a + b) (2 ^ e - 1))

namespace num

/-- Strategy `num::saturating_add` at an unsigned `w`-bit type:
`*left = left.saturating_add(right)`; `right` is only read. -/
def saturating_add_u (w : Nat) (left right : Nat) : Nat × Nat :=
  (usatAdd w left right, right)

/-- Strategy `num::saturating_add` at a signed type with `e` value bits. -/
def saturating_add_i (e : Nat) (left right : Int) : Int × Int :=
  (isatAdd e left right, right)

end num

namespace ord

/-- Strategy `ord::max_def`: when `partial_cmp(left, right) == Some(Less)`,
`*left = core::mem::take(right)`, leaving the default `d` in `right`. -/
def max_def (pcmp : α → α → Option Ordering) (d left right : α) : α × α :=
  if pcmp left right = some Ordering.lt then (right, d) else (left, right)

/-- Strategy `ord::min_def`: when `partial_cmp(left, right) == Some(Greater)`,
`*left = core::mem::take(right)`, leaving the default `d` in `right`. -/
def min_def (pcmp : α → α → Option Ordering) (d left right : α) : α × α :=
  if pcmp left right = some Ordering.gt then (right, d) else (left, right)

/-- Strategy `ord::max_swap`: swap when `partial_cmp(left, right) == Some(Less)`. -/
def max_swap (pcmp : α → α → Option Ordering) (left right : α) : α × α :=
  if pcmp left right = some Ordering.lt then (right, left) else (left, right)

/-- Strategy `ord::min_swap`: swap when `partial_cmp(left, right) == Some(Greater)`. -/
def min_swap (pcmp : α → α → Option Ordering) (left right : α) : α × α :=
  if pcmp left right = some Ordering.gt then (right, left) else (left, right)

end ord

/-- The `partial_cmp` of a type whose order is total: it always returns
`Some` of the three-way comparison. -/
def totalPcmp [LinearOrder α] (a b : α) : Option Ordering :=
  some (compare a b)

/-- The `impl Merge for String` (and for `&str`): swap exactly when `left`
is the empty string. -/
def stringMerge (left right : List Char) : List Char × List Char :=
  if left.isEmpty then (right, left) else (left, right)

namespace string

/-- Strategy `string::append`: `let new = take(right); left.push_str(&new)`. -/
def append (left right : List Char) : List Char × List Char :=
  (left ++ right, [])

/-- Strategy `string::prepend`: `right.push_str(left); *left = take(right)`. -/
def prepend (left right : List Char) : List Char × List Char :=
  (right ++ left, [])

end string

/-- The `impl Merge for Vec<T>`: swap exactly when `left` is empty. -/
def vecMerge (left right : List α) : List α × List α :=
  if left.isEmpty then (right, left) else (left, right)

namespace vec

/-- Strategy `vec::append`: swap when `left` is empty, else
`left.append(right)` which drains `right` into the end of `left`. -/
def append (left right : List α) : List α × List α :=
  if left.isEmpty then (right, left) else (left ++ right, [])

/-- Strategy `vec::prepend`: `right.append(left)` (draining `left` onto the
end of `right`) followed by `core::mem::swap(left, right)`. -/
def prepend (left right : List α) : List α × List α :=
  (right ++ left, [])

end vec

/-- Association-list lookup modelling `HashMap` key lookup: the value of the
first pair whose key equals `k`. -/
def hmLookup [DecidableEq K] (m : List (K × V)) (k : K) : Option V :=
  (m.find? (fun p => decide (p.1 = k))).map Prod.snd

/-- The `impl Merge for HashMap<K, V>`: swap exactly when `left` is empty. -/
def hashMapMerge (left right : List (K × V)) : List (K × V) × List (K × V) :=
  if left.isEmpty then (right, left) else (left, right)

namespace hashmap

/-- One step of `hashmap::merge`: `left.entry(k).or_insert(v)` inserts `(k, v)`
only when `k` is absent. -/
def entryOrInsert [DecidableEq K] (m : List (K × V)) (k : K) (v : V) : List (K × V) :=
  if (hmLookup m k).isSome then m else m ++ [(k, v)]

/-- One step of `hashmap::replace`: `HashMap::insert` overwrites the value
stored under `k` when present, else adds the entry. -/
def insertPair [DecidableEq K] (m : List (K × V)) (k : K) (v : V) : List (K × V) :=
  if (hmLookup m k).isSome then
    m.map (fun p => if p.1 = k then (p.1, v) else p)
  else m ++ [(k, v)]

/-- Strategy `hashmap::merge`: drain `right` and `or_insert` each of its
entries into `left` (so `left`'s entries win on collision). -/
def merge [DecidableEq K] (left right : List (K × V)) : List (K × V) × List (K × V) :=
  (right.foldl (fun acc kv => entryOrInsert acc kv.1 kv.2) left, [])

/-- Strategy `hashmap::replace`: `left.extend(take(right))`, inserting every
entry of `right` (so `right`'s entries win on collision). -/
def replace [DecidableEq K] (left right : List (K × V)) : List (K × V) × List (K × V) :=
  (right.foldl (fun acc kv => insertPair acc kv.1 kv.2) left, [])

/-- Strategy `hashmap::recursive`: drain `right`; on an occupied entry merge
the two values in place with the value merge `m`, on a vacant entry insert. -/
def recursive [DecidableEq K] (m : V → V → V × V) (left right : List (K × V)) :
    List (K × V) × List (K × V) :=
  (right.foldl (fun acc kv =>
    if (hmLookup acc kv.1).isSome then
      acc.map (fun p => if p.1 = kv.1 then (p.1, (m p.2 kv.2).1) else p)
    else acc ++ [kv]) left, [])

/-- Strategy `hashmap::intersection`: drain `right`; merge in place only the
entries whose key is already occupied in `left`, drop the rest. -/
def intersection [DecidableEq K] (m : V → V → V × V) (left right : List (K × V)) :
    List (K × V) × List (K × V) :=
  (right.foldl (fun acc kv =>
    if (hmLookup acc kv.1).isSome then
      acc.map (fun p => if p.1 = kv.1 then (p.1, (m p.2 kv.2).1) else p)
    else acc) left, [])

end hashmap

/-- A record shape with one field marked `#[merge(skip)]` and a remainder of
type `β` merged by an arbitrary strategy.  `gen_assignments` filters skip
fields out of the generated assignment list, so the derived `merge` touches
only `rest`. -/
structure SkipRec (α β : Type) where
  skipField : α
  rest : β

/-- Merge implementation the derive macro generates for `SkipRec`: one
assignment per non-skip field, none for the skip field. -/
def derivedMergeSkip (m : β → β → β × β) (t i : SkipRec α β) :
    SkipRec α β × SkipRec α β :=
  (⟨t.skipField, (m t.rest i.rest).1⟩, ⟨i.skipField, (m t.rest i.rest).2⟩)

/-- C1: the default `Merge` for `Option` replaces `target` exactly when it is
`None`; otherwise `target` keeps its value and `incoming`'s value is
discarded: `merge(None, Some x) = Some x`, `merge(Some x, Some y) = Some x`,
`merge(Some x, None) = Some x`, `merge(None, None) = None`. -/
theorem optionMerge_overwrite_if_empty (x y : α) :
    (optionMerge (none : Option α) (some x)).1 = some x
    ∧ (optionMerge (some x) (some y)).1 = some x
    ∧ (optionMerge (some x) (none : Option α)).1 = some x
    ∧ (optionMerge (none : Option α) (none : Option α)).1 = none :=
  ⟨rfl, rfl, rfl, rfl⟩

/-- C2: in a derived merge, a field marked `skip` is never touched: for every
inner strategy and every pair of records, the merged target's skip field
equals the pre-merge target's skip field, whatever `incoming` holds there. -/
theorem derivedMergeSkip_skip_purity (m : β → β → β × β) (t i : SkipRec α β) :
    (derivedMergeSkip m t i).1.skipField = t.skipField :=
  rfl

/-- C3: `vec::append` leaves `target = a ++ b` (hence of length
`len a + len b`) and `vec::prepend` leaves `target = b ++ a`, for all lists
including empty ones; an empty operand is the identity and order is kept. -/
theorem vec_append_prepend_concat (a b : List α) :
    (vec.append a b).1 = a ++ b
    ∧ ((vec.append a b).1).length = a.length + b.length
    ∧ (vec.prepend a b).1 = b ++ a
    ∧ (vec.append a []).1 = a
    ∧ (vec.append [] b).1 = b
    ∧ (vec.prepend a []).1 = a
    ∧ (vec.prepend [] b).1 = b := by
  have hab : ∀ (x y : List α), (vec.append x y).1 = x ++ y := by
    intro x y
    cases x <;> simp [vec.append]
  have hpre : ∀ (x y : List α), (vec.prepend x y).1 = y ++ x := fun _ _ => rfl
  refine ⟨hab a b, ?_, hpre a b, ?_, ?_, ?_, ?_⟩
  · rw [hab a b, List.length_append]
  · rw [hab a []]; simp
  · rw [hab [] b]; simp
  · rw [hpre a []]; simp
  · rw [hpre [] b]; simp

/-- C6: `option::recursive` adopts `incoming`'s value when `target` is empty,
recursively merges the inner values when both are present (keeping the merged
inner value in `target`), and leaves `target` unchanged when `incoming` is
empty. -/
theorem option_recursive_spec (m : α → α → α × α) (x y : α) (l : Option α) :
    (option.recursive m none (some y)).1 = some y
    ∧ (option.recursive m (some x) (some y)).1 = some (m x y).1
    ∧ (option.recursive m l none).1 = l :=
  ⟨rfl, rfl, rfl⟩

/-- C9: merging a value with an equal copy of itself is the identity, for the
no-op primitive implementations and for every container default
implementation (`Option`, `String`, `Vec`, `HashMap`). -/
theorem defaults_idempotent_on_self [DecidableEq K]
    (v : α) (o : Option α) (s : List Char) (xs : List α) (hm : List (K × V)) :
    (skipMerge v v).1 = v
    ∧ (optionMerge o o).1 = o
    ∧ (stringMerge s s).1 = s
    ∧ (vecMerge xs xs).1 = xs
    ∧ (hashMapMerge hm hm).1 = hm := by
  refine ⟨rfl, ?_, ?_, ?_, ?_⟩
  · unfold optionMerge; split <;> rfl
  · unfold stringMerge; split <;> rfl
  · unfold vecMerge; split <;> rfl
  · unfold hashMapMerge; split <;> rfl

theorem hmLookup_nil [DecidableEq K] (k : K) :
    hmLookup ([] : List (K × V)) k = none :=
  rfl

theorem hmLookup_cons [DecidableEq K] (p : K × V) (m : List (K × V)) (k : K) :
    hmLookup (p :: m) k = if p.1 = k then some p.2 else hmLookup m k := by
  unfold hmLookup
  rw [List.find?_cons]
  by_cases h : p.1 = k
  · simp [h]
  · simp [h]

theorem hmLookup_append [DecidableEq K] (a b : List (K × V)) (k : K) :
    hmLookup (a ++ b) k = (hmLookup a k).or (hmLookup b k) := by
  unfold hmLookup
  rw [List.find?_append]
  cases a.find? (fun p => decide (p.1 = k)) <;> simp [Option.or]

theorem hmLookup_eq_none_of_not_mem [DecidableEq K] {m : List (K × V)} {k : K}
    (hk : k ∉ m.map Prod.fst) : hmLookup m k = none := by
  induction m with
  | nil => rfl
  | cons p m ih =>
    rw [List.map_cons, List.mem_cons, not_or] at hk
    rw [hmLookup_cons, if_neg (fun h => hk.1 h.symm), ih hk.2]

theorem hmLookup_map_update [DecidableEq K] (m : List (K × V)) (k0 : K) (v : V)
    (k : K) :
    hmLookup (m.map (fun p => if p.1 = k0 then (p.1, v) else p)) k
      = (hmLookup m k).map (fun w => if k0 = k then v else w) := by
  induction m with
  | nil => rfl
  | cons p m ih =>
    by_cases hp0 : p.1 = k0
    · by_cases hpk : p.1 = k
      · subst hp0; subst hpk
        simp [hmLookup_cons]
      · subst hp0
        simp [hmLookup_cons, hpk, ih]
    · by_cases hpk : p.1 = k
      · subst hpk
        simp [hmLookup_cons, hp0, Ne.symm hp0]
      · simp [hmLookup_cons, hp0, hpk, ih]

theorem hmLookup_insertPair [DecidableEq K] (m : List (K × V)) (k0 : K) (v : V)
    (k : K) :
    hmLookup (hashmap.insertPair m k0 v) k
      = if k0 = k then some v else hmLookup m k := by
  unfold hashmap.insertPair
  by_cases hs : (hmLookup m k0).isSome
  · rw [if_pos hs, hmLookup_map_update]
    by_cases hk : k0 = k
    · subst hk
      rw [if_pos rfl]
      obtain ⟨w, hw⟩ := Option.isSome_iff_exists.1 hs
      rw [hw]
      simp
    · rw [if_neg hk]
      cases hmLookup m k <;> simp [hk]
  · rw [if_neg hs, hmLookup_append]
    have hnone : hmLookup m k0 = none := Option.not_isSome_iff_eq_none.1 hs
    by_cases hk : k0 = k
    · subst hk
      rw [hnone, if_pos rfl]
      simp [hmLookup_cons]
    · rw [if_neg hk]
      have h1 : hmLookup ([(k0, v)] : List (K × V)) k = none := by
        simp [hmLookup_cons, hmLookup_nil, hk]
      rw [h1]
      cases hmLookup m k <;> rfl

theorem hmLookup_orInsert_foldl [DecidableEq K] (r l : List (K × V)) (k : K) :
    hmLookup (r.foldl (fun acc kv => hashmap.entryOrInsert acc kv.1 kv.2) l) k
      = (hmLookup l k).or (hmLookup r k) := by
  induction r generalizing l with
  | nil =>
    rw [List.foldl_nil, hmLookup_nil]
    cases hmLookup l k <;> rfl
  | cons kv r ih =>
    rw [List.foldl_cons, ih, hmLookup_cons]
    unfold hashmap.entryOrInsert
    by_cases hs : (hmLookup l kv.1).isSome
    · rw [if_pos hs]
      by_cases hk : kv.1 = k
      · subst hk
        obtain ⟨w, hw⟩ := Option.isSome_iff_exists.1 hs
        rw [hw, if_pos rfl]
        rfl
      · rw [if_neg hk]
    · rw [if_neg hs, hmLookup_append]
      have hnone : hmLookup l kv.1 = none := Option.not_isSome_iff_eq_none.1 hs
      by_cases hk : kv.1 = k
      · subst hk
        rw [hnone, if_pos rfl]
        simp [hmLookup_cons]
      · rw [if_neg hk]
        have h1 : hmLookup ([(kv.1, kv.2)] : List (K × V)) k = none := by
          simp [hmLookup_cons, hmLookup_nil, hk]
        rw [h1]
        cases hmLookup l k <;> rfl

theorem hmLookup_insert_foldl [DecidableEq K] (r l : List (K × V)) (k : K)
    (hr : (r.map Prod.fst).Nodup) :
    hmLookup (r.foldl (fun acc kv => hashmap.insertPair acc kv.1 kv.2) l) k
      = (hmLookup r k).or (hmLookup l k) := by
  induction r generalizing l with
  | nil =>
    rw [List.foldl_nil, hmLookup_nil]
    rfl
  | cons kv r ih =>
    rw [List.map_cons, List.nodup_cons] at hr
    rw [List.foldl_cons, ih _ hr.2, hmLookup_cons, hmLookup_insertPair]
    by_cases hk : kv.1 = k
    · subst hk
      rw [if_pos rfl, if_pos rfl, hmLookup_eq_none_of_not_mem hr.1]
      rfl
    · rw [if_neg hk, if_neg hk]

/-- C4: `hashmap::merge` and `hashmap::replace` both leave `target` holding
the union of the two maps over keys; on a key present in both,
`hashmap::merge` keeps `target`'s value and `hashmap::replace` takes
`incoming`'s. -/
theorem hashmap_merge_replace_precedence [DecidableEq K]
    (t i : List (K × V)) (k : K) (hi : (i.map Prod.fst).Nodup) :
    hmLookup (hashmap.merge t i).1 k = (hmLookup t k).or (hmLookup i k)
    ∧ hmLookup (hashmap.replace t i).1 k = (hmLookup i k).or (hmLookup t k) := by
  unfold hashmap.merge hashmap.replace
  exact ⟨hmLookup_orInsert_foldl i t k, hmLookup_insert_foldl i t k hi⟩

/-- Witness for C4 on concrete maps colliding at key 1. -/
theorem hashmap_merge_replace_precedence_witness :
    ((([(1, 21), (2, 22)] : List (Nat × Nat)).map Prod.fst).Nodup)
    ∧ (hmLookup (hashmap.merge [(0, 10), (1, 11)] [(1, 21), (2, 22)]).1 1
        = (hmLookup ([(0, 10), (1, 11)] : List (Nat × Nat)) 1).or
            (hmLookup ([(1, 21), (2, 22)] : List (Nat × Nat)) 1)
      ∧ hmLookup (hashmap.replace [(0, 10), (1, 11)] [(1, 21), (2, 22)]).1 1
        = (hmLookup ([(1, 21), (2, 22)] : List (Nat × Nat)) 1).or
            (hmLookup ([(0, 10), (1, 11)] : List (Nat × Nat)) 1)) :=
  ⟨by decide, hashmap_merge_replace_precedence _ _ 1 (by decide)⟩

/-- C5: under a total order, `ord::max_swap` / `ord::max_def` replace `target`
with `incoming` exactly when `incoming` is strictly greater, and
`ord::min_swap` / `ord::min_def` exactly when it is strictly less; on ties
`target` is kept, so every one of the four fixes `x, x` to `x`. -/
theorem ord_strategies_total_order [LinearOrder α] (d l r x : α) :
    ((ord.max_swap totalPcmp l r).1 = if l < r then r else l)
    ∧ ((ord.min_swap totalPcmp l r).1 = if r < l then r else l)
    ∧ ((ord.max_def totalPcmp d l r).1 = if l < r then r else l)
    ∧ ((ord.min_def totalPcmp d l r).1 = if r < l then r else l)
    ∧ (ord.max_swap totalPcmp x x).1 = x
    ∧ (ord.min_swap totalPcmp x x).1 = x
    ∧ (ord.max_def totalPcmp d x x).1 = x
    ∧ (ord.min_def totalPcmp d x x).1 = x := by
  have hmax : ∀ (d' l' r' : α),
      (ord.max_swap totalPcmp l' r').1 = (if l' < r' then r' else l')
      ∧ (ord.max_def totalPcmp d' l' r').1 = (if l' < r' then r' else l') := by
    intro d' l' r'
    constructor <;>
      · simp only [ord.max_swap, ord.max_def, totalPcmp, Option.some.injEq,
          compare_lt_iff_lt]
        split <;> rfl
  have hmin : ∀ (d' l' r' : α),
      (ord.min_swap totalPcmp l' r').1 = (if r' < l' then r' else l')
      ∧ (ord.min_def totalPcmp d' l' r').1 = (if r' < l' then r' else l') := by
    intro d' l' r'
    constructor <;>
      · simp only [ord.min_swap, ord.min_def, totalPcmp, Option.some.injEq,
          compare_gt_iff_gt]
        split <;> rfl
  refine ⟨(hmax d l r).1, (hmin d l r).1, (hmax d l r).2, (hmin d l r).2,
    ?_, ?_, ?_, ?_⟩
  · rw [(hmax d x x).1, if_neg (lt_irrefl x)]
  · rw [(hmin d x x).1, if_neg (lt_irrefl x)]
  · rw [(hmax d x x).2, if_neg (lt_irrefl x)]
  · rw [(hmin d x x).2, if_neg (lt_irrefl x)]

/-- C10: when `partial_cmp` yields no ordering (incomparable operands), each
of the four order strategies leaves both operands unchanged. -/
theorem ord_strategies_incomparable (pcmp : α → α → Option Ordering)
    (d l r : α) (hnone : pcmp l r = none) :
    ord.max_def pcmp d l r = (l, r)
    ∧ ord.min_def pcmp d l r = (l, r)
    ∧ ord.max_swap pcmp l r = (l, r)
    ∧ ord.min_swap pcmp l r = (l, r) := by
  unfold ord.max_def ord.min_def ord.max_swap ord.min_swap
  rw [hnone]
  simp

/-- Witness for C10 at the always-incomparable comparison on `Nat`. -/
theorem ord_strategies_incomparable_witness :
    (fun _ _ : Nat => (none : Option Ordering)) 0 1 = none
    ∧ (ord.max_def (fun _ _ : Nat => (none : Option Ordering)) 7 0 1 = (0, 1)
      ∧ ord.min_def (fun _ _ : Nat => (none : Option Ordering)) 7 0 1 = (0, 1)
      ∧ ord.max_swap (fun _ _ : Nat => (none : Option Ordering)) 0 1 = (0, 1)
      ∧ ord.min_swap (fun _ _ : Nat => (none : Option Ordering)) 0 1 = (0, 1)) :=
  ⟨rfl, ord_strategies_incomparable _ 7 0 1 rfl⟩

/-- C7: `num::saturating_add` sets `target` to the sum clamped to the type's
representable range: below the cap it is the exact sum, above it the cap, and
in particular `MAX + 1` saturates to `MAX`, both unsigned and signed. -/
theorem num_saturating_add_spec (w e : Nat) (a b : Nat) (sa sb : Int) :
    ((num.saturating_add_u w a b).1
      = if a + b ≤ 2 ^ w - 1 then a + b else 2 ^ w - 1)
    ∧ (num.saturating_add_u w (2 ^ w - 1) 1).1 = 2 ^ w - 1
    ∧ ((num.saturating_add_i e sa sb).1
      = if sa + sb < -(2 ^ e) then -(2 ^ e)
        else if (2 ^ e - 1 : Int) < sa + sb then 2 ^ e - 1 else sa + sb)
    ∧ (num.saturating_add_i e (2 ^ e - 1) 1).1 = 2 ^ e - 1 := by
  have hpos : (0 : Int) < 2 ^ e := pow_pos (by norm_num) e
  have hchar : ∀ (s : Int),
      isatAdd e s 0 = if s < -(2 ^ e) then -(2 ^ e)
        else if (2 ^ e - 1 : Int) < s then 2 ^ e - 1 else s := by
    intro s
    unfold isatAdd
    rw [max_def, min_def]
    split_ifs <;> omega
  refine ⟨?_, ?_, ?_, ?_⟩
  · show min (a + b) (2 ^ w - 1) = _
    rw [Nat.min_def]
  · show min (2 ^ w - 1 + 1) (2 ^ w - 1) = 2 ^ w - 1
    exact min_eq_right (Nat.le_succ _)
  · show isatAdd e sa sb = _
    have h0 : isatAdd e sa sb = isatAdd e (sa + sb) 0 := by
      unfold isatAdd; rw [add_zero]
    rw [h0, hchar (sa + sb)]
  · show isatAdd e (2 ^ e - 1) 1 = 2 ^ e - 1
    have h0 : isatAdd e (2 ^ e - 1) 1 = isatAdd e (2 ^ e) 0 := by
      unfold isatAdd
      norm_num
    rw [h0, hchar (2 ^ e)]
    split_ifs <;> omega

/-- C8: every strategy function and every default `Merge` implementation in
the embedding is a total function: at every input it produces a result, and
none of them has an error or failure path (each maps straight into its result
type, never into an error-carrying one; absent data takes an unchanged
branch). -/
theorem strategies_total [DecidableEq α] [DecidableEq K]
    (d l r : α) (pcmp : α → α → Option Ordering) (m : α → α → α × α)
    (mv : V → V → V × V) (o1 o2 : Option α) (b1 b2 : Bool)
    (w e : Nat) (a1 a2 : Nat) (s1 s2 : Int)
    (c1 c2 : List Char) (x1 x2 : List α) (h1 h2 : List (K × V))
    (t i : SkipRec α V) :
    (∃ p, any.overwrite d l r = p)
    ∧ (∃ p, any.overwrite_default d l r = p)
    ∧ (∃ p, any.swap l r = p)
    ∧ (∃ p, optionMerge o1 o2 = p)
    ∧ (∃ p, option.recursive m o1 o2 = p)
    ∧ (∃ p, skipMerge l r = p)
    ∧ (∃ p, bool.overwrite_false b1 b2 = p)
    ∧ (∃ p, bool.overwrite_true b1 b2 = p)
    ∧ (∃ p, num.saturating_add_u w a1 a2 = p)
    ∧ (∃ p, num.saturating_add_i e s1 s2 = p)
    ∧ (∃ p, ord.max_def pcmp d l r = p)
    ∧ (∃ p, ord.min_def pcmp d l r = p)
    ∧ (∃ p, ord.max_swap pcmp l r = p)
    ∧ (∃ p, ord.min_swap pcmp l r = p)
    ∧ (∃ p, stringMerge c1 c2 = p)
    ∧ (∃ p, string.append c1 c2 = p)
    ∧ (∃ p, string.prepend c1 c2 = p)
    ∧ (∃ p, vecMerge x1 x2 = p)
    ∧ (∃ p, vec.append x1 x2 = p)
    ∧ (∃ p, vec.prepend x1 x2 = p)
    ∧ (∃ p, hashMapMerge h1 h2 = p)
    ∧ (∃ p, hashmap.merge h1 h2 = p)
    ∧ (∃ p, hashmap.replace h1 h2 = p)
    ∧ (∃ p, hashmap.recursive mv h1 h2 = p)
    ∧ (∃ p, hashmap.intersection mv h1 h2 = p)
    ∧ (∃ p, derivedMergeSkip mv t i = p) :=
  ⟨⟨_, rfl⟩, ⟨_, rfl⟩, ⟨_, rfl⟩, ⟨_, rfl⟩, ⟨_, rfl⟩, ⟨_, rfl⟩, ⟨_, rfl⟩,
    ⟨_, rfl⟩, ⟨_, rfl⟩, ⟨_, rfl⟩, ⟨_, rfl⟩, ⟨_, rfl⟩, ⟨_, rfl⟩, ⟨_, rfl⟩,
    ⟨_, rfl⟩, ⟨_, rfl⟩, ⟨_, rfl⟩, ⟨_, rfl⟩, ⟨_, rfl⟩, ⟨_, rfl⟩, ⟨_, rfl⟩,
    ⟨_, rfl⟩, ⟨_, rfl⟩, ⟨_, rfl⟩, ⟨_, rfl⟩, ⟨_, rfl⟩⟩

end Merge2
